import Mathlib

/-
  Verification of the option-extraction and store components of explainshell.

  The definitions below are a shallow embedding of
    explainshell/options.py  (regex-driven option extractor) and
    explainshell/store.py    (data objects and man-page lookup).

  The Python regexes are embedded as explicit backtracking matchers over
  `List Char`: every sub-pattern is compiled to a function producing its
  candidate match lengths in the exact priority order a backtracking regex
  engine (Python's `re`) explores them, and the surrounding pattern picks
  the first candidate whose continuation succeeds.  Character classes are
  the ASCII fragments of Python's `\w`, `\s`, `[A-Z]`, `[-a-zA-Z]`.
-/

namespace Explainshell

/-- ASCII fragment of Python's `\s` / `str.isspace`. -/
def pyIsSpace (c : Char) : Bool :=
  c == ' ' || c == '\t' || c == '\n' || c == '\r' ||
  c == Char.ofNat 11 || c == Char.ofNat 12

/-- ASCII fragment of Python's `\w`: letters, digits and underscore. -/
def isW (c : Char) : Bool := c.isAlphanum || c == '_'

/-- Length of the maximal run of characters satisfying `f` at the head. -/
def runLen (f : Char → Bool) : List Char → Nat
  | [] => 0
  | c :: cs => if f c then runLen f cs + 1 else 0

/-- Candidate match lengths for a greedy `f+`, longest first (backtracking
order of a regex `+`); empty when the head does not satisfy `f`. -/
def plusCands (f : Char → Bool) (l : List Char) : List Nat :=
  (List.range (runLen f l)).map (fun i => runLen f l - i)

/-- Candidate match lengths for a greedy `f*`, longest first, always ending
with 0. -/
def starCands (f : Char → Bool) (l : List Char) : List Nat :=
  (List.range (runLen f l + 1)).map (fun i => runLen f l - i)

/-- Candidate lengths for `(?:\w+-)*` (from `opt_regex`): each iteration is a
`\w+` run followed by a literal `-`; greedy, so deeper iterations come first
and the empty match comes last.  The first argument is fuel (each iteration
consumes at least two characters, so `l.length + 1` is always enough). -/
def wdashStar : Nat → List Char → List Nat
  | 0, _ => [0]
  | fuel + 1, l =>
    (((plusCands isW l).filterMap (fun e =>
        if (l.drop e).head? == some '-' then some (e + 1) else none)).flatMap
      (fun e => (wdashStar fuel (l.drop e)).map (fun e2 => e + e2))) ++ [0]

/-- Candidate lengths for the body of the `opt` group of `opt_regex`:
`(?:\?|\#|(?:\w+-)*\w+)`, alternatives in regex priority order. -/
def optBodyCands (l : List Char) : List Nat :=
  (if l.head? == some '?' then [1] else []) ++
  (if l.head? == some '#' then [1] else []) ++
  ((wdashStar (l.length + 1) l).flatMap
    (fun e => (plusCands isW (l.drop e)).map (fun e2 => e + e2)))

/-- Candidate lengths for the whole `opt` group `--?(?:\?|\#|(?:\w+-)*\w+)`:
a dash, a greedy optional second dash, then the body. -/
def optCands (l : List Char) : List Nat :=
  if l.head? == some '-' then
    (if (l.drop 1).head? == some '-' then
       (optBodyCands (l.drop 2)).map (fun e => e + 2)
     else []) ++
    (optBodyCands (l.drop 1)).map (fun e => e + 1)
  else []

/-- One fully matched argument clause of `opt_regex` (everything between the
`opt` group and the `ending` group). -/
structure argclause where
  eq2 : Bool                  -- did capture group 2 (the first `=`) match?
  argoptional : Option Char   -- the opening `<` or `[`, if any
  argoptionalc : Option Char  -- the closing `]` or `>`, if any
  arg : List Char             -- the text of the `arg` group
  len : Nat                   -- total number of characters consumed
  deriving Repr, DecidableEq

/-- Candidate lengths for `\s?`: consume-one first (greedy), then empty. -/
def sOpt (l : List Char) : List Nat :=
  match l with
  | c :: _ => if pyIsSpace c then [1, 0] else [0]
  | [] => [0]

/-- Candidate (length, captured?) pairs for `(=)?`, greedy. -/
def eqOpt (l : List Char) : List (Nat × Bool) :=
  if l.head? == some '=' then [(1, true), (0, false)] else [(0, false)]

/-- Candidate (length, capture) pairs for `(?P<argoptional>[<\[])?`, greedy. -/
def braOpt (l : List Char) : List (Nat × Option Char) :=
  match l.head? with
  | some c => if c == '<' || c == '[' then [(1, some c), (0, none)] else [(0, none)]
  | none => [(0, none)]

/-- The character class of the `arg` group, chosen by the regex conditionals
`(?(argoptional) [^\]>]+ | (?(2) [-a-zA-Z]+ | [A-Z]+))`. -/
def argClass (hasBracket : Bool) (eq2 : Bool) : Char → Bool :=
  if hasBracket then (fun c => !(c == ']' || c == '>'))
  else if eq2 then (fun c => c == '-' || c.isAlpha)
  else Char.isUpper

/-- All candidate argument clauses of `opt_regex` at the head of `l`, in
backtracking priority order: `\s?(=)?\s? [<\[]? \s?(=)?\s? arg closing?`. -/
def argClauseCands (l : List Char) : List argclause :=
  (sOpt l).flatMap fun a =>
  (eqOpt (l.drop a)).flatMap fun pb =>
  (sOpt (l.drop (a + pb.1))).flatMap fun c =>
  (braOpt (l.drop (a + pb.1 + c))).flatMap fun pd =>
  (sOpt (l.drop (a + pb.1 + c + pd.1))).flatMap fun a2 =>
  (eqOpt (l.drop (a + pb.1 + c + pd.1 + a2))).flatMap fun pb2 =>
  (sOpt (l.drop (a + pb.1 + c + pd.1 + a2 + pb2.1))).flatMap fun c2 =>
  let p := a + pb.1 + c + pd.1 + a2 + pb2.1 + c2
  let rest := l.drop p
  (plusCands (argClass pd.2.isSome pb.2) rest).flatMap fun e =>
  match pd.2 with
  | some oc =>
    match (rest.drop e).head? with
    | some cc =>
      if cc == ']' || cc == '>' then
        [⟨pb.2, some oc, some cc, rest.take e, p + e + 1⟩]
      else []
    | none => []
  | none => [⟨pb.2, none, none, rest.take e, p + e⟩]

/-- The `ending` group `,\s*|\s+|\Z|/|\|` of `opt_regex`: the five
alternatives have pairwise distinct first characters, so the priority order
collapses to this if-chain; returns the matched text and its length. -/
def endingMatch (l : List Char) : Option (List Char × Nat) :=
  match l with
  | [] => some ([], 0)
  | c :: rest =>
    if c == ',' then some (c :: rest.take (runLen pyIsSpace rest), 1 + runLen pyIsSpace rest)
    else if pyIsSpace c then some (l.take (runLen pyIsSpace l), runLen pyIsSpace l)
    else if c == '/' then some (['/'], 1)
    else if c == '|' then some (['|'], 1)
    else none

/-- The data of a successful `opt_regex` match: the capture groups used by
`options.py` plus the total match length (`m.end(0) - pos`). -/
structure optmatch where
  opt : List Char
  eq2 : Bool
  argoptional : Option Char
  argoptionalc : Option Char
  arg : Option (List Char)
  ending : List Char
  len : Nat
  deriving Repr, DecidableEq

/-- `opt_regex.match(s, pos)` embedded at the head of `l`: the first `opt`
candidate whose continuation (greedy optional argument clause, then the
mandatory `ending`) succeeds. -/
def optRegexMatch (l : List Char) : Option optmatch :=
  (optCands l).findSome? fun eo =>
    let rest := l.drop eo
    (((argClauseCands rest).findSome? fun ac =>
        (endingMatch (rest.drop ac.len)).map fun pe =>
          ⟨l.take eo, ac.eq2, ac.argoptional, ac.argoptionalc, some ac.arg,
           pe.1, eo + ac.len + pe.2⟩) <|>
     (endingMatch rest).map fun pe =>
        ⟨l.take eo, false, none, none, none, pe.1, eo + pe.2⟩)

/-- `options._option`: the regex match, rejected when the argument delimiters
do not pair up (`[`/`]` or `<`/`>`). -/
def pyOption (l : List Char) : Option optmatch :=
  match optRegexMatch l with
  | some m =>
    match m.argoptional with
    | some c =>
      if (c == '[' && m.argoptionalc == some ']') ||
         (c == '<' && m.argoptionalc == some '>') then some m
      else none
    | none => some m
  | none => none

/-- The data of a successful `opt2_regex` match (`options._flag`): the `opt`
and `arg` groups and the total match length. -/
structure flagmatch where
  opt : List Char
  arg : List Char
  len : Nat
  deriving Repr, DecidableEq

/-- The ending `(?:,\s*|\s+|\Z)` of `opt2_regex` (length only; the text is
unused).  The three alternatives have distinct first characters. -/
def ending3 (l : List Char) : Option Nat :=
  match l with
  | [] => some 0
  | c :: rest =>
    if c == ',' then some (1 + runLen pyIsSpace rest)
    else if pyIsSpace c then some (runLen pyIsSpace l)
    else none

/-- `opt2_regex.match` (`options._flag`) embedded at the head of `l`:
`(?P<opt>\w+)(?:\s*=\s*(?P<arg>\w+))(?:,\s*|\s+|\Z)`.  Note the argument part
is not optional in this regex. -/
def flagRegexMatch (l : List Char) : Option flagmatch :=
  (plusCands isW l).findSome? fun o =>
  (starCands pyIsSpace (l.drop o)).findSome? fun s1 =>
  if (l.drop (o + s1)).head? == some '=' then
    (starCands pyIsSpace (l.drop (o + s1 + 1))).findSome? fun s2 =>
    (plusCands isW (l.drop (o + s1 + 1 + s2))).findSome? fun a =>
    (ending3 (l.drop (o + s1 + 1 + s2 + a))).map fun e =>
      ⟨l.take o, (l.drop (o + s1 + 1 + s2)).take a, o + s1 + 1 + s2 + a + e⟩
  else none

/-- `options._eatbetween`: match `\s*(?:or|,|\|)\s*` at the head and return
the number of characters consumed, 0 when there is no match.  (A space can
never begin `or`, `,` or `|`, so the leading `\s*` is forced to its maximal
run and no backtracking into it can succeed.) -/
def eatbetween (l : List Char) : Nat :=
  let a := runLen pyIsSpace l
  let rest := l.drop a
  if rest.head? == some 'o' && (rest.drop 1).head? == some 'r' then
    a + 2 + runLen pyIsSpace (rest.drop 2)
  else if rest.head? == some ',' then a + 1 + runLen pyIsSpace (rest.drop 1)
  else if rest.head? == some '|' then a + 1 + runLen pyIsSpace (rest.drop 1)
  else 0

/-- `options.extractedoption`: a named pair of the flag's spelling and the
argument it expects (if any). -/
structure extractedoption where
  flag : String
  expectsarg : Option String
  deriving Repr, DecidableEq

/-- `extractedoption.__eq__` against a bare string compares the spelling
alone (`self.flag == other`). -/
def extractedoption.eqstr (e : extractedoption) (s : String) : Bool :=
  e.flag == s

/-- Does a spelling start with `--`? (`s.startswith("--")`). -/
def startsDashDash : List Char → Bool
  | '-' :: '-' :: _ => true
  | _ => false

/-- The manual pipe-splitting fallback inside `extract_option` (the inner
`while currpos < len(txt) and not txt[currpos].isspace()` loop).  `full` is
the text from the position the fallback started at, `rem` the remaining
suffix, `i` the number of characters scanned so far, `st` the current piece
start (`startpos - entry position`) and `acc` the short-flag list being
appended to.  Returns the updated list, the final scan length and the final
piece start. -/
def fallbackAux (full : List Char) :
    List Char → Nat → Nat → List extractedoption →
    List extractedoption × Nat × Nat
  | [], i, st, acc =>
    let leftover := (full.drop st).take (i - st)
    (if leftover.isEmpty then acc else acc ++ [⟨leftover.asString, none⟩], i, st)
  | c :: rest, i, st, acc =>
    if pyIsSpace c then
      let leftover := (full.drop st).take (i - st)
      (if leftover.isEmpty then acc else acc ++ [⟨leftover.asString, none⟩], i, st)
    else if c == '|' then
      fallbackAux full rest (i + 1) i
        (acc ++ [⟨((full.drop st).take (i - st)).asString, none⟩])
    else
      fallbackAux full rest (i + 1) st acc

/-- The main `while m:` loop of `extract_option` over the dashed-flag
grammar, operating on `base` (the input with its leading whitespace already
stripped, so the initial `startpos` is 0).  Returns the two buckets plus the
final `currpos` and `startpos`.  Each successful match consumes at least two
characters, so fuel `base.length + 1` can never be exhausted. -/
def dashedLoop (base : List Char) :
    Nat → Nat → Nat → List extractedoption → List extractedoption →
    List extractedoption × List extractedoption × Nat × Nat
  | 0, currpos, startpos, short, long => (short, long, currpos, startpos)
  | fuel + 1, currpos, startpos, short, long =>
    match pyOption (base.drop currpos) with
    | none => (short, long, currpos, startpos)
    | some m =>
      let po : extractedoption := ⟨m.opt.asString, m.arg.map List.asString⟩
      let short' := if startsDashDash m.opt then short else short ++ [po]
      let long' := if startsDashDash m.opt then long ++ [po] else long
      let c1 := currpos + m.len
      let c2 := c1 + eatbetween (base.drop c1)
      if m.ending == ['|'] then
        match pyOption (base.drop c2) with
        | some _ => dashedLoop base fuel c2 startpos short' long'
        | none =>
          let r := fallbackAux (base.drop c2) (base.drop c2) 0 0 short'
          (r.1, long', c2 + r.2.1, c2 + r.2.2)
      else dashedLoop base fuel c2 startpos short' long'

/-- The trailing `while m := _flag(txt, currpos):` loop of `extract_option`
over the bare-word grammar; it only ever appends to the `long` bucket.  Each
match consumes at least three characters, so fuel `base.length + 1` can
never be exhausted. -/
def flagLoop (base : List Char) :
    Nat → Nat → List extractedoption → List extractedoption
  | 0, _, long => long
  | fuel + 1, currpos, long =>
    match flagRegexMatch (base.drop currpos) with
    | none => long
    | some fm =>
      let c1 := currpos + fm.len
      let c2 := c1 + eatbetween (base.drop c1)
      flagLoop base fuel c2 (long ++ [⟨fm.opt.asString, some fm.arg.asString⟩])

/-- The body of `extract_option` on the whitespace-stripped input: run the
dashed-flag loop, and when it consumed nothing since the last `startpos`
(`currpos == startpos`), run the bare-word loop. -/
def extractCore (base : List Char) :
    List extractedoption × List extractedoption :=
  let r := dashedLoop base (base.length + 1) 0 0 [] []
  if r.2.2.1 = r.2.2.2 then (r.1, flagLoop base (base.length + 1) r.2.2.1 r.2.1)
  else (r.1, r.2.1)

/-- `options.extract_option`: `startpos = currpos = len(txt) - len(txt.lstrip())`
positions every later access at or after the first non-whitespace character,
so the whole computation runs on the stripped suffix. -/
def extract_option (txt : String) :
    List extractedoption × List extractedoption :=
  extractCore (txt.toList.dropWhile pyIsSpace)

/-- Python's `str.lstrip()` (ASCII whitespace). -/
def lstrip (txt : String) : String :=
  (txt.toList.dropWhile pyIsSpace).asString

/-- `store.paragraph`: a man-page paragraph.  The `section` attribute of the
source is named `sect` here because `section` is a Lean keyword. -/
structure paragraph where
  idx : Int
  text : String
  sect : String
  is_option : Bool
  deriving Repr, DecidableEq

/-- `store.option`: a paragraph together with its extracted option data.
`expectsarg` and `nestedcommand` are arbitrary truthy/falsy values in the
source (bools, strings or lists); their truthiness is embedded as `Bool`. -/
structure option where
  par : paragraph
  short : List String
  long : List String
  expectsarg : Bool
  argument : Option String
  nestedcommand : Bool
  deriving Repr, DecidableEq

/-- `store.option.__init__`: the constructor asserts
`nestedcommand -> expectsarg`; a failed assert (an `AssertionError`) is
embedded as `none`. -/
def option.make (p : paragraph) (short long : List String) (expectsarg : Bool)
    (argument : Option String) (nestedcommand : Bool) : Option option :=
  if nestedcommand && !expectsarg then none
  else some ⟨p, short, long, expectsarg, argument, nestedcommand⟩

/-- `store.option.opts`: the combined short-plus-long spelling list
(`self._opts = self.short + self.long`). -/
def option.opts (o : option) : List String := o.short ++ o.long

/-- An entry of `manpage.paragraphs`: either a plain paragraph or an option
paragraph (in Python, `option` is a subclass of `paragraph`). -/
inductive paritem where
  | plain (p : paragraph)
  | popt (o : option)
  deriving Repr, DecidableEq

/-- `store.manpage`: a processed man page.  The stored-document dictionary
is identified with the constructed object; `from_store` differences that no
claim touches (synopsis defaulting via `helpconstants.NOSYNOPSIS`) are not
modelled. -/
structure manpage where
  source : String
  name : String
  synopsis : Option String
  paragraphs : List paritem
  aliases : List (String × Int)
  partialmatch : Bool
  multicommand : Bool
  updated : Bool
  nestedcommand : Bool
  deriving Repr, DecidableEq

/-- `store.manpage.options`: the paragraphs that are option instances, in
paragraph order. -/
def manpage.options (m : manpage) : List option :=
  m.paragraphs.filterMap fun pi =>
    match pi with
    | .plain _ => none
    | .popt o => some o

/-- `store.manpage.find_option`: the doubly nested `for` loop with early
return — the first option paragraph one of whose `opts` equals `flag`. -/
def manpage.find_option (m : manpage) (flag : String) : Option option :=
  m.options.find? fun o => o.opts.any (fun x => x == flag)

/-- `util.namesection` applied to `source[:-3]` (as in `manpage.section`):
drop the trailing `.gz` and return everything after the last dot; `none`
embeds the `ValueError` Python raises when there is no dot. -/
def sectionOfSource (source : String) : Option String :=
  let base := source.toList.take (source.toList.length - 3)
  if base.contains '.' then
    some ((base.reverse.takeWhile (fun c => c ≠ '.')).reverse.asString)
  else none

/-- A document of the `mapping` collection: `(src, dst, score)`. -/
structure mappingdoc where
  src : String
  dst : Nat
  score : Int
  deriving Repr, DecidableEq

/-- The two MongoDB collections `store.findmanpage` reads, embedded as lists
in collection order (documents are returned in that order by `find`). -/
structure storedb where
  mapping : List mappingdoc
  manpages : List (Nat × manpage)
  deriving Repr, DecidableEq

/-- The outcome of `store.findmanpage`: a result list, a raised
`errors.ProgramDoesNotExist(name)`, or the `IndexError` that `results[0]`
raises when every mapped document is missing from the manpage collection. -/
inductive findresult where
  | found (pages : List manpage)
  | notFound (name : String)
  | indexError
  deriving Repr, DecidableEq

/-- `name.rsplit(".", 1)`: the part before the last dot and, when a dot
exists, the part after it. -/
def rsplit1 (name : String) : String × Option String :=
  let l := name.toList
  if l.contains '.' then
    (((l.reverse.dropWhile (fun c => c ≠ '.')).drop 1).reverse.asString,
     some ((l.reverse.takeWhile (fun c => c ≠ '.')).reverse.asString))
  else (name, none)

/-- `name.endswith(".gz")`. -/
def endsWithGz (name : String) : Bool :=
  match name.toList.reverse with
  | 'z' :: 'g' :: '.' :: _ => true
  | _ => false

/-- The score the dict `dsts = {d["dst"]: d["score"] for d in cursor}` holds
for key `k` (the last write wins), with the `dsts.get(x[0], 0)` default. -/
def scoreOf (st : storedb) (base : String) (k : Nat) : Int :=
  match (st.mapping.filter (fun d => d.src == base && d.dst == k)).getLast? with
  | some d => d.score
  | none => 0

/-- Is `k` one of the keys of `dsts` for the lookup of `base`? -/
def isDst (st : storedb) (base : String) (k : Nat) : Bool :=
  st.mapping.any (fun d => d.src == base && d.dst == k)

/-- `manpage.from_store_name_only(name, source)`. -/
def from_store_name_only (name source : String) : manpage :=
  ⟨source, name, none, [], [], false, false, false, false⟩

/-- Stable insertion sort: `x` is inserted before the first `y` it satisfies
`le x y` with, so elements tied under a total `le` keep their relative
order, as in Python's `list.sort`. -/
def insertSorted (le : α → α → Bool) (x : α) : List α → List α
  | [] => [x]
  | y :: ys => if le x y then x :: y :: ys else y :: insertSorted le x ys

/-- Python's stable `list.sort(key=..., reverse=...)` as an insertion sort
under an explicit boolean comparison. -/
def insertionSort (le : α → α → Bool) : List α → List α
  | [] => []
  | x :: xs => insertSorted le x (insertionSort le xs)

/-- `store._discovermanpagesuggestions`: all destinations of sources mapping
to `oid`, minus the already-discovered ones, as name-only pages. -/
def discoverSuggestions (st : storedb) (oid : Nat)
    (existing : List (Nat × manpage)) : List (Nat × manpage) :=
  let skip := existing.map Prod.fst
  let srcs := (st.mapping.filter (fun d => d.dst == oid)).map (fun d => d.src)
  let suggestionoids :=
    ((st.mapping.filter (fun d => srcs.contains d.src)).map (fun d => d.dst)).filter
      (fun k => !skip.contains k)
  (st.manpages.filter (fun p => suggestionoids.contains p.1)).map
    (fun p => (p.1, from_store_name_only p.2.name p.2.source))

/-- The final `results[0] = manpage.from_store(doc)` replacement: the first
entry of the result list is reloaded as a full document (kept as-is when the
lookup misses, as in the source's `if doc is not None` guard). -/
def replaceHead (st : storedb) (oid : Nat) (pages : List manpage) : List manpage :=
  match pages with
  | [] => []
  | h :: rest =>
    match st.manpages.find? (fun p => p.1 == oid) with
    | some p => p.2 :: rest
    | none => h :: rest

/-- The section-splitting of the looked-up name (`name.rsplit(".", 1)`,
skipped for the single name `"."`). -/
def splitName (name : String) : String × Option String :=
  if name == "." then (name, none) else rsplit1 name

/-- The name-only pages of all documents mapped from `base`, in manpage
collection order (`[(d.pop("_id"), from_store_name_only(**d)) for d in cursor]`). -/
def results0 (st : storedb) (base : String) : List (Nat × manpage) :=
  (st.manpages.filter (fun p => isDst st base p.1)).map
    (fun p => (p.1, from_store_name_only p.2.name p.2.source))

/-- The comparison of `results.sort(key=lambda x: dsts.get(x[0], 0),
reverse=True)`: `a` may stay before `b` when its score is at least `b`'s. -/
def scoreLe (st : storedb) (base : String) (a b : Nat × manpage) : Bool :=
  decide (scoreOf st base b.1 ≤ scoreOf st base a.1)

/-- `results0` after the stable descending sort by mapping score. -/
def results1 (st : storedb) (base : String) : List (Nat × manpage) :=
  insertionSort (scoreLe st base) (results0 st base)

/-- The key of the second sort: does this page carry the requested section? -/
def secKey (s : String) (x : Nat × manpage) : Bool :=
  sectionOfSource x.2.source == some s

/-- The comparison of `results.sort(key=lambda m: m.section == section,
reverse=True)`: section matches first, stable. -/
def secLe (s : String) (a b : Nat × manpage) : Bool :=
  secKey s a || !secKey s b

/-- `results1` after the stable matching-section-first re-sort (performed
only when there is more than one result, as in the source). -/
def results2 (st : storedb) (base s : String) : List (Nat × manpage) :=
  if 1 < (results1 st base).length then
    insertionSort (secLe s) (results1 st base)
  else results1 st base

/-- `store.findmanpage`, for a database in the state captured by `st`. -/
def findmanpage (st : storedb) (name : String) : findresult :=
  if endsWithGz name then
    match st.manpages.find? (fun p => p.2.source == name) with
    | some p => .found [p.2]
    | none => .notFound name
  else
    let base := (splitName name).1
    if (st.mapping.filter (fun d => d.src == base)).isEmpty then .notFound base
    else
      match (splitName name).2 with
      | none =>
        match results1 st base with
        | [] => .indexError
        | (oid, _) :: _ =>
          .found (replaceHead st oid ((results1 st base).map Prod.snd))
      | some s =>
        match results2 st base s with
        | [] => .indexError
        | (oid, m0) :: _ =>
          if sectionOfSource m0.source != some s then .notFound name
          else
            .found (replaceHead st oid
              ((results2 st base s ++
                discoverSuggestions st oid (results2 st base s)).map Prod.snd))

/-- Well-formedness of the database state assumed by the `findmanpage`
claims: every mapping destination exists, document ids are unique, and every
document's source yields a section (otherwise the Python `section` property
would raise `ValueError` instead of returning a comparison result). -/
def wfdb (st : storedb) : Prop :=
  (∀ d ∈ st.mapping, ∃ p ∈ st.manpages, p.1 = d.dst) ∧
  (st.manpages.map Prod.fst).Nodup ∧
  (∀ p ∈ st.manpages, (sectionOfSource (Prod.snd p).source).isSome = true)

/-- Amended specification of the pipe-splitting fallback, written from the
corrected claim: the whitespace-free scan is split at every `|`; the first
piece is the text before the first `|`, every later piece begins with the
`|` it was split at, and only an empty final leftover is dropped.  `cur` is
the piece accumulated so far. -/
def pipeSplitSpec (cur : List Char) : List Char → List (List Char)
  | [] => if cur.isEmpty then [] else [cur]
  | c :: rest =>
    if c = '|' then cur :: pipeSplitSpec ['|'] rest
    else pipeSplitSpec (cur ++ [c]) rest

/-- An example database: the name `x` maps to two pages, `x.8.gz` with score
10 and `x.1.gz` with score 5. -/
def exdb : storedb :=
  ⟨[⟨"x", 1, 10⟩, ⟨"x", 2, 5⟩],
   [(1, from_store_name_only "x" "x.8.gz"), (2, from_store_name_only "x" "x.1.gz")]⟩

/-- The amended long-bucket property of C1: a flag in the `long` bucket
either begins with `--` (dashed grammar) or is a bare `\w`-word (the
`key=value` grammar, whose spellings contain no dash at all). -/
def longOk (f : extractedoption) : Prop :=
  startsDashDash f.flag.toList = true ∨ ∀ c ∈ f.flag.toList, isW c = true

/-! ### Helper lemmas -/

theorem dashedLoop_none {base : List Char} {fuel currpos startpos : Nat}
    {short long : List extractedoption}
    (h : pyOption (base.drop currpos) = none) :
    dashedLoop base fuel currpos startpos short long =
      (short, long, currpos, startpos) := by
  cases fuel <;> simp [dashedLoop, h]

theorem flagLoop_none {base : List Char} {fuel currpos : Nat}
    {long : List extractedoption}
    (h : flagRegexMatch (base.drop currpos) = none) :
    flagLoop base fuel currpos long = long := by
  cases fuel <;> simp [flagLoop, h]

theorem findSome?_mem {α β : Type} {l : List α} {g : α → Option β} {b : β}
    (h : l.findSome? g = some b) : ∃ a ∈ l, g a = some b := by
  rw [List.findSome?_eq_some_iff] at h
  obtain ⟨l1, a, l2, hsp, hga, _⟩ := h
  exact ⟨a, by simp [hsp], hga⟩

theorem mem_plusCands {f : Char → Bool} {l : List Char} {e : Nat}
    (h : e ∈ plusCands f l) : 1 ≤ e ∧ e ≤ runLen f l := by
  simp only [plusCands, List.mem_map, List.mem_range] at h
  obtain ⟨i, hi, rfl⟩ := h
  omega

theorem runLen_take {f : Char → Bool} :
    ∀ (l : List Char) (e : Nat), e ≤ runLen f l → ∀ c ∈ l.take e, f c = true := by
  intro l
  induction l with
  | nil => intro e _ c hc; simp at hc
  | cons x xs ih =>
    intro e he c hc
    match e with
    | 0 => simp at hc
    | e + 1 =>
      rw [runLen] at he
      by_cases hx : f x = true
      · rw [if_pos hx] at he
        rw [List.take_succ_cons] at hc
        rcases List.mem_cons.mp hc with h | h
        · rw [h]; exact hx
        · exact ih e (by omega) c h
      · rw [if_neg hx] at he
        omega

/-- Every character of the `arg` capture of an argument-clause candidate
satisfies the character class selected by its `argoptional`/`eq2` captures. -/
theorem argClauseCands_chars {l : List Char} {ac : argclause}
    (hm : ac ∈ argClauseCands l) :
    ∀ c ∈ ac.arg, argClass ac.argoptional.isSome ac.eq2 c = true := by
  unfold argClauseCands at hm
  simp only [List.mem_flatMap] at hm
  obtain ⟨a, _, pb, _, c0, _, pd, _, a2, _, pb2, _, c2, _, e, he, hfin⟩ := hm
  have hchars := runLen_take _ _ (mem_plusCands he).2
  split at hfin
  · split at hfin
    · split at hfin
      · rcases List.mem_singleton.mp hfin with rfl
        intro ch hch
        have hiso : pd.2.isSome = true := by simp_all
        rw [hiso] at hchars
        simpa using hchars ch hch
      · simp at hfin
    · simp at hfin
  · rcases List.mem_singleton.mp hfin with rfl
    intro ch hch
    have hiso : pd.2.isSome = false := by simp_all
    rw [hiso] at hchars
    simpa using hchars ch hch

/-- Every character of the `opt` capture of a bare-word (`opt2_regex`) match
is a `\w` character. -/
theorem flagRegexMatch_opt_isW {l : List Char} {fm : flagmatch}
    (h : flagRegexMatch l = some fm) : ∀ c ∈ fm.opt, isW c = true := by
  unfold flagRegexMatch at h
  obtain ⟨o, ho, h⟩ := findSome?_mem h
  obtain ⟨s1, _, h⟩ := findSome?_mem h
  by_cases heq : ((l.drop (o + s1)).head? == some '=') = true
  · rw [if_pos heq] at h
    obtain ⟨s2, _, h⟩ := findSome?_mem h
    obtain ⟨a, _, h⟩ := findSome?_mem h
    rcases Option.map_eq_some'.mp h with ⟨e, _, rfl⟩
    exact runLen_take _ _ (mem_plusCands ho).2
  · rw [if_neg heq] at h
    simp at h

theorem orElse_eq_some {α : Type} {x y : Option α} {b : α}
    (h : (x <|> y) = some b) : x = some b ∨ (x = none ∧ y = some b) := by
  cases x <;> simp_all

/-- The dashed-flag loop only ever appends `--`-prefixed flags to `long`. -/
theorem dashedLoop_long_ok (base : List Char) :
    ∀ (fuel currpos startpos : Nat) (short long : List extractedoption),
      (∀ g ∈ long, longOk g) →
      ∀ f ∈ (dashedLoop base fuel currpos startpos short long).2.1, longOk f := by
  intro fuel
  induction fuel with
  | zero =>
    intro currpos startpos short long hinv f hf
    simp only [dashedLoop] at hf
    exact hinv f hf
  | succ n ih =>
    intro currpos startpos short long hinv f hf
    match hmO : pyOption (base.drop currpos) with
    | none =>
      rw [dashedLoop_none hmO] at hf
      exact hinv f hf
    | some m =>
      simp only [dashedLoop, hmO] at hf
      have hlong' : ∀ g ∈ (if startsDashDash m.opt = true
          then long ++ [⟨m.opt.asString, m.arg.map List.asString⟩] else long),
          longOk g := by
        intro g hg
        by_cases hdd : startsDashDash m.opt = true
        · rw [if_pos hdd] at hg
          rcases List.mem_append.mp hg with h | h
          · exact hinv g h
          · rcases List.mem_singleton.mp h with rfl
            exact Or.inl (by simpa [List.toList_asString] using hdd)
        · rw [if_neg hdd] at hg
          exact hinv g hg
      split at hf
      · split at hf
        · exact ih _ _ _ _ hlong' f hf
        · exact hlong' f hf
      · exact ih _ _ _ _ hlong' f hf

/-- The bare-word loop only ever appends dash-free `\w`-words to `long`. -/
theorem flagLoop_long_ok (base : List Char) :
    ∀ (fuel currpos : Nat) (long : List extractedoption),
      (∀ g ∈ long, longOk g) →
      ∀ f ∈ flagLoop base fuel currpos long, longOk f := by
  intro fuel
  induction fuel with
  | zero =>
    intro currpos long hinv f hf
    simp only [flagLoop] at hf
    exact hinv f hf
  | succ n ih =>
    intro currpos long hinv f hf
    match hmF : flagRegexMatch (base.drop currpos) with
    | none =>
      rw [flagLoop_none hmF] at hf
      exact hinv f hf
    | some fm =>
      simp only [flagLoop, hmF] at hf
      refine ih _ _ ?_ f hf
      intro g hg
      rcases List.mem_append.mp hg with h | h
      · exact hinv g h
      · rcases List.mem_singleton.mp h with rfl
        exact Or.inr (by
          intro c hc
          rw [List.toList_asString] at hc
          exact flagRegexMatch_opt_isW hmF c hc)

theorem pipeSplitSpec_nil (cur : List Char) :
    pipeSplitSpec cur [] = if cur.isEmpty then [] else [cur] := by
  simp [pipeSplitSpec]

theorem pipeSplitSpec_pipeHead (cur rest : List Char) :
    pipeSplitSpec cur ('|' :: rest) = cur :: pipeSplitSpec ['|'] rest := by
  simp [pipeSplitSpec]

theorem pipeSplitSpec_cons {c : Char} (hc : c ≠ '|') (cur rest : List Char) :
    pipeSplitSpec cur (c :: rest) = pipeSplitSpec (cur ++ [c]) rest := by
  simp [pipeSplitSpec, hc]

/-- The slice-and-index bookkeeping of the fallback loop computes exactly the
pipe-splitting of the whitespace-free prefix described by `pipeSplitSpec`. -/
theorem fallbackAux_spec (full : List Char) :
    ∀ (rem : List Char) (i st : Nat) (acc : List extractedoption),
      rem = full.drop i → st ≤ i →
      (fallbackAux full rem i st acc).1 =
        acc ++ (pipeSplitSpec ((full.drop st).take (i - st))
                 (rem.takeWhile (fun c => !pyIsSpace c))).map
                 (fun p => (⟨p.asString, none⟩ : extractedoption)) := by
  intro rem
  induction rem with
  | nil =>
    intro i st acc hrem hst
    rw [fallbackAux, List.takeWhile_nil, pipeSplitSpec_nil]
    by_cases hcur : ((full.drop st).take (i - st)).isEmpty = true
    · simp [hcur]
    · simp only [Bool.not_eq_true] at hcur
      simp [hcur]
  | cons c rest ih =>
    intro i st acc hrem hst
    have hdropsucc : full.drop (i + 1) = rest := by
      have h1 : (full.drop i).drop 1 = rest := by rw [← hrem]; rfl
      rwa [List.drop_drop] at h1
    have hheadi : full[i]? = some c := by
      have := List.head?_drop full i
      rw [← hrem] at this
      simpa using this.symm
    rw [fallbackAux]
    by_cases hsp : pyIsSpace c = true
    · rw [if_pos hsp, List.takeWhile_cons, if_neg (by simp [hsp]), pipeSplitSpec_nil]
      by_cases hcur : ((full.drop st).take (i - st)).isEmpty = true
      · simp [hcur]
      · simp only [Bool.not_eq_true] at hcur
        simp [hcur]
    · rw [if_neg hsp]
      by_cases hpipe : (c == '|') = true
      · rw [if_pos hpipe]
        have hc : c = '|' := by simpa using hpipe
        rw [ih (i + 1) i _ hdropsucc.symm (by omega)]
        have htake1 : (full.drop i).take (i + 1 - i) = ['|'] := by
          rw [← hrem]
          simp [hc, List.take_succ_cons, show i + 1 - i = 1 from by omega]
        rw [htake1, List.takeWhile_cons, if_pos (by simp [hsp]), hc,
          pipeSplitSpec_pipeHead]
        simp
      · rw [if_neg hpipe]
        rw [ih (i + 1) st _ hdropsucc.symm (by omega)]
        have htakes : (full.drop st).take (i + 1 - st) =
            (full.drop st).take (i - st) ++ [c] := by
          rw [show i + 1 - st = (i - st) + 1 from by omega, List.take_succ]
          have : (full.drop st)[i - st]? = some c := by
            rw [List.getElem?_drop, show st + (i - st) = i from by omega, hheadi]
          rw [this]
          rfl
        rw [htakes, List.takeWhile_cons, if_pos (by simp [hsp]),
          pipeSplitSpec_cons (by simpa using hpipe)]

theorem mem_insertSorted {α : Type} {le : α → α → Bool} {x a : α} {l : List α} :
    x ∈ insertSorted le a l ↔ x = a ∨ x ∈ l := by
  induction l with
  | nil => simp [insertSorted]
  | cons y ys ih =>
    by_cases h : le a y = true
    · simp [insertSorted, h]
    · simp only [insertSorted, if_neg h, List.mem_cons, ih]
      tauto

theorem mem_insertionSort {α : Type} {le : α → α → Bool} {x : α} {l : List α} :
    x ∈ insertionSort le l ↔ x ∈ l := by
  induction l with
  | nil => simp [insertionSort]
  | cons y ys ih => simp [insertionSort, mem_insertSorted, ih]

theorem pairwise_insertSorted {α : Type} {le : α → α → Bool}
    (htot : ∀ a b, le a b = true ∨ le b a = true)
    (htrans : ∀ a b c, le a b = true → le b c = true → le a c = true)
    {a : α} {l : List α} (hl : List.Pairwise (fun u v => le u v = true) l) :
    List.Pairwise (fun u v => le u v = true) (insertSorted le a l) := by
  induction l with
  | nil => simp [insertSorted]
  | cons y ys ih =>
    rcases List.pairwise_cons.mp hl with ⟨hy, hys⟩
    by_cases h : le a y = true
    · rw [insertSorted, if_pos h]
      refine List.pairwise_cons.mpr ⟨?_, hl⟩
      intro z hz
      rcases List.mem_cons.mp hz with rfl | hz
      · exact h
      · exact htrans a y z h (hy z hz)
    · rw [insertSorted, if_neg h]
      refine List.pairwise_cons.mpr ⟨?_, ih hys⟩
      intro z hz
      rcases mem_insertSorted.mp hz with hza | hz
      · rw [hza]
        rcases htot a y with h' | h'
        · exact absurd h' h
        · exact h'
      · exact hy z hz

theorem pairwise_insertionSort {α : Type} {le : α → α → Bool}
    (htot : ∀ a b, le a b = true ∨ le b a = true)
    (htrans : ∀ a b c, le a b = true → le b c = true → le a c = true)
    (l : List α) :
    List.Pairwise (fun u v => le u v = true) (insertionSort le l) := by
  induction l with
  | nil => simp [insertionSort]
  | cons y ys ih => exact pairwise_insertSorted htot htrans ih

theorem insertSorted_skip {α : Type} {le : α → α → Bool} {x : α} {A B : List α}
    (hA : ∀ y ∈ A, le x y = false) :
    insertSorted le x (A ++ B) = A ++ insertSorted le x B := by
  induction A with
  | nil => simp
  | cons a as ih =>
    rw [List.cons_append, insertSorted, if_neg (by simp [hA a (by simp)])]
    rw [ih (fun y hy => hA y (by simp [hy]))]
    rfl

/-- A stable sort whose comparison is induced by a boolean key moves the
key-true elements to the front, each block keeping its original order. -/
theorem insertionSort_boolKey {α : Type} (p : α → Bool) (l : List α) :
    insertionSort (fun a b => p a || !p b) l =
      l.filter p ++ l.filter (fun a => !p a) := by
  induction l with
  | nil => rfl
  | cons x xs ih =>
    rw [insertionSort, ih]
    by_cases hx : p x = true
    · have hfront : insertSorted (fun a b => p a || !p b) x
          (xs.filter p ++ xs.filter (fun a => !p a)) =
          x :: (xs.filter p ++ xs.filter (fun a => !p a)) := by
        cases hAB : xs.filter p ++ xs.filter (fun a => !p a) with
        | nil => rfl
        | cons y ys => rw [insertSorted, if_pos (by simp [hx])]
      rw [hfront]
      simp [List.filter_cons, hx]
    · have hskip : ∀ y ∈ xs.filter p, (p x || !p y) = false := by
        intro y hy
        have hpy := (List.mem_filter.mp hy).2
        simp [hx, hpy]
      rw [insertSorted_skip hskip]
      have hfrontB : insertSorted (fun a b => p a || !p b) x
          (xs.filter (fun a => !p a)) = x :: xs.filter (fun a => !p a) := by
        cases hB : xs.filter (fun a => !p a) with
        | nil => rfl
        | cons y ys =>
          rw [insertSorted, if_pos ?_]
          have hpy := (List.mem_filter.mp (hB ▸ List.mem_cons_self y ys)).2
          simp [hpy]
      rw [hfrontB]
      simp [List.filter_cons, hx]

theorem results2_eq_filters (st : storedb) (base s : String) :
    results2 st base s = (results1 st base).filter (secKey s) ++
      (results1 st base).filter (fun x => !secKey s x) := by
  unfold results2
  by_cases hlen : 1 < (results1 st base).length
  · rw [if_pos hlen]
    exact insertionSort_boolKey (secKey s) (results1 st base)
  · rw [if_neg hlen]
    cases hr2 : results1 st base with
    | nil => simp
    | cons x t =>
      cases t with
      | nil => by_cases hk : secKey s x = true <;> simp [List.filter_cons, hk]
      | cons y t2 =>
        rw [hr2] at hlen
        simp at hlen

theorem pairwise_results1 (st : storedb) (base : String) :
    List.Pairwise (fun a b => scoreLe st base a b = true) (results1 st base) := by
  refine pairwise_insertionSort ?_ ?_ _
  · intro a b
    unfold scoreLe
    rcases le_total (scoreOf st base b.1) (scoreOf st base a.1) with h | h
    · exact Or.inl (by simpa using h)
    · exact Or.inr (by simpa using h)
  · intro a b c hab hbc
    unfold scoreLe at hab hbc ⊢
    simp only [decide_eq_true_eq] at hab hbc ⊢
    omega

theorem mem_results1 {st : storedb} {base : String} {x : Nat × manpage} :
    x ∈ results1 st base ↔ x ∈ results0 st base :=
  mem_insertionSort

theorem mem_results2 {st : storedb} {base s : String} {x : Nat × manpage} :
    x ∈ results2 st base s ↔ x ∈ results0 st base := by
  rw [results2_eq_filters, List.mem_append, List.mem_filter, List.mem_filter]
  constructor
  · rintro (⟨h, _⟩ | ⟨h, _⟩) <;> exact mem_results1.mp h
  · intro h
    by_cases hk : secKey s x = true
    · exact Or.inl ⟨mem_results1.mpr h, hk⟩
    · exact Or.inr ⟨mem_results1.mpr h, by simp [hk]⟩

theorem mem_results0_iff {st : storedb} {base : String} {x : Nat × manpage} :
    x ∈ results0 st base ↔ ∃ p ∈ st.manpages, isDst st base p.1 = true ∧
      x = (p.1, from_store_name_only p.2.name p.2.source) := by
  unfold results0
  simp only [List.mem_map, List.mem_filter]
  constructor
  · rintro ⟨p, ⟨hp, hd⟩, rfl⟩
    exact ⟨p, hp, hd, rfl⟩
  · rintro ⟨p, hp, hd, rfl⟩
    exact ⟨p, ⟨hp, hd⟩, rfl⟩

/-- With unique document ids, the reload of `results[0]` by id recovers
exactly the document the name-only head was created from. -/
theorem find?_id_of_nodup {st : storedb}
    (hnd : (st.manpages.map Prod.fst).Nodup)
    {q : Nat × manpage} (hq : q ∈ st.manpages) :
    st.manpages.find? (fun p => p.1 == q.1) = some q := by
  have hex : ∃ x ∈ st.manpages, (fun p => p.1 == q.1) x = true := ⟨q, hq, by simp⟩
  rcases Option.isSome_iff_exists.mp (List.find?_isSome.mpr hex) with ⟨x, hx⟩
  have hxm := List.mem_of_find?_eq_some hx
  have hxq : x.1 = q.1 := by simpa using List.find?_some hx
  have := List.inj_on_of_nodup_map hnd hxm hq hxq
  rw [hx, this]

/-! ### Claim theorems -/

/-- C3 counterexample: for `"-a|b|c"` the fallback pieces are `b` and `|c`
(the `|` separator is retained on every piece after the first), not `b` and
`c` as the claim states; no short flag is spelled `c`. -/
theorem c3_counterexample :
    extract_option "-a|b|c" = ([⟨"-a", none⟩, ⟨"b", none⟩, ⟨"|c", none⟩], []) ∧
    ((extract_option "-a|b|c").1.all (fun f => !(f.flag == "c"))) = true := by
  decide

/-- C3 (amended): when the dashed grammar stops matching after a `|` ending,
the fallback appends, as short flags with no argument, exactly the pieces of
the whitespace-free remainder split at each `|`, where the piece before the
first `|` keeps no separator and every later piece begins with the `|` it
was split at (so `"-a|b|c"` yields pieces `b` and `|c`); only an empty final
leftover is dropped. -/
theorem c3_pipe_fallback (l : List Char) (acc : List extractedoption) :
    (fallbackAux l l 0 0 acc).1 =
      acc ++ (pipeSplitSpec [] (l.takeWhile (fun c => !pyIsSpace c))).map
        (fun p => (⟨p.asString, none⟩ : extractedoption)) := by
  have := fallbackAux_spec l l 0 0 acc (by simp) (Nat.le_refl 0)
  simpa using this

/-- C1 counterexample: for `"bs=1024, count=100"` the bare-word `key=value`
flags land in the `long` bucket, not the short one, although their spellings
do not begin with `--`; the claim as stated is false on this input. -/
theorem c1_counterexample :
    (extract_option "bs=1024, count=100").1 = [] ∧
    ⟨"bs", some "1024"⟩ ∈ (extract_option "bs=1024, count=100").2 ∧
    startsDashDash "bs".toList = false := by
  decide

/-- C1 (amended): every flag in the `long` bucket either begins with `--`
or is a bare `\w`-word (so bare `key=value` flags land in `long`, and no
other spelling shape reaches that bucket). -/
theorem c1_long_bucket (txt : String) (f : extractedoption)
    (hf : f ∈ (extract_option txt).2) : longOk f := by
  unfold extract_option extractCore at hf
  dsimp only at hf
  split at hf
  · exact flagLoop_long_ok _ _ _ _
      (dashedLoop_long_ok _ _ _ _ _ _ (by simp)) f hf
  · exact dashedLoop_long_ok _ _ _ _ _ _ (by simp) f hf

/-- Witness for C1 (amended) at a concrete input. -/
theorem c1_long_bucket_witness :
    ⟨"bs", some "1024"⟩ ∈ (extract_option "bs=1024, count=100").2 ∧
    longOk ⟨"bs", some "1024"⟩ :=
  ⟨by decide,
   c1_long_bucket "bs=1024, count=100" ⟨"bs", some "1024"⟩ (by decide)⟩

/-- C4: `extract_option("-a FOO, -b=BAR")` yields exactly the two short
flags with `expectsarg` `FOO` and `BAR`; in general an undelimited argument
matched without `=` (after a bare space) consists of uppercase letters only,
while after `=` it draws from the hyphen/letter class. -/
theorem c4_undelimited_args :
    extract_option "-a FOO, -b=BAR" =
      ([⟨"-a", some "FOO"⟩, ⟨"-b", some "BAR"⟩], []) ∧
    (∀ (l : List Char) (m : optmatch) (a : List Char),
      optRegexMatch l = some m → m.argoptional = none → m.arg = some a →
      ((m.eq2 = true → ∀ c ∈ a, (c == '-' || c.isAlpha) = true) ∧
       (m.eq2 = false → ∀ c ∈ a, c.isUpper = true))) := by
  refine ⟨by decide, ?_⟩
  intro l m a hm hopt harg
  unfold optRegexMatch at hm
  obtain ⟨eo, heo, hin⟩ := findSome?_mem hm
  rcases orElse_eq_some hin with hx | ⟨hx, hy⟩
  · obtain ⟨ac, hac, hmap⟩ := findSome?_mem hx
    rcases Option.map_eq_some'.mp hmap with ⟨pe, hpe, rfl⟩
    have hchars := argClauseCands_chars hac
    dsimp only at hopt harg ⊢
    rw [Option.some_inj] at harg
    rw [hopt] at hchars
    rw [harg] at hchars
    constructor
    · intro h2 c hc
      have := hchars c hc
      simpa [argClass, h2] using this
    · intro h2 c hc
      have := hchars c hc
      simpa [argClass, h2] using this
  · rcases Option.map_eq_some'.mp hy with ⟨pe, hpe, rfl⟩
    simp at harg

/-- Witness for C4's general part at a concrete match. -/
theorem c4_undelimited_args_witness :
    optRegexMatch "-b=BAR".toList =
      some ⟨"-b".toList, true, none, none, some "BAR".toList, [], 6⟩ ∧
    (∀ c ∈ "BAR".toList, (c == '-' || c.isAlpha) = true) :=
  ⟨by decide,
   ((c4_undelimited_args.2 "-b=BAR".toList
      ⟨"-b".toList, true, none, none, some "BAR".toList, [], 6⟩
      "BAR".toList (by decide) (by decide) (by decide)).1 (by decide))⟩

/-- C2: `extract_option` reproduces the documented edge cases exactly:
`-a-`, `--a-`, `-`, `--`, `---` extract nothing; `-?` and `-#` are valid
flag spellings; `-a=<foo bar>` yields flag `-a` with argument `foo bar`
(spaces allowed only inside matching delimiters); `-a=[foo>` and `-a[foo>`
(mismatched delimiters) extract nothing. -/
theorem c2_edge_cases :
    extract_option "-a-" = ([], []) ∧
    extract_option "--a-" = ([], []) ∧
    extract_option "-" = ([], []) ∧
    extract_option "--" = ([], []) ∧
    extract_option "---" = ([], []) ∧
    extract_option "-?" = ([⟨"-?", none⟩], []) ∧
    extract_option "-#" = ([⟨"-#", none⟩], []) ∧
    extract_option "-a=<foo bar>" = ([⟨"-a", some "foo bar"⟩], []) ∧
    extract_option "-a=[foo>" = ([], []) ∧
    extract_option "-a[foo>" = ([], []) := by
  decide

/-- C5: an option with `nestedcommand` set and `expectsarg` unset cannot be
constructed (the constructor's assert fires, embedded as `none`), and every
successfully constructed option satisfies `nestedcommand → expectsarg`. -/
theorem c5_nestedcommand_invariant :
    (∀ p sh lo ea arg nc o, option.make p sh lo ea arg nc = some o →
      o.nestedcommand = true → o.expectsarg = true) ∧
    (∀ p sh lo arg, option.make p sh lo false arg true = none) := by
  constructor
  · intro p sh lo ea arg nc o h hn
    unfold option.make at h
    by_cases hc : (nc && !ea) = true
    · simp [hc] at h
    · simp [hc] at h
      rw [← h] at hn ⊢
      simp at hn ⊢
      simp [hn] at hc
      exact hc
  · intro p sh lo arg
    simp [option.make]

/-- Witness for C5 at a concrete construction. -/
theorem c5_nestedcommand_invariant_witness :
    option.make ⟨0, "", "", true⟩ ["-e"] [] true none true =
      some ⟨⟨0, "", "", true⟩, ["-e"], [], true, none, true⟩ ∧
    (⟨⟨0, "", "", true⟩, ["-e"], [], true, none, true⟩ :
      option).expectsarg = true :=
  ⟨by decide,
   c5_nestedcommand_invariant.1 ⟨0, "", "", true⟩ ["-e"] [] true none true
     ⟨⟨0, "", "", true⟩, ["-e"], [], true, none, true⟩ (by decide) (by decide)⟩

/-- C6: comparing an extracted flag against a bare string succeeds exactly
when the spelling equals the string, independently of `expectsarg`. -/
theorem c6_eq_by_spelling (e : extractedoption) (s : String) :
    (e.eqstr s = true ↔ e.flag = s) ∧
    (∀ a : Option String, extractedoption.eqstr ⟨e.flag, a⟩ s = e.eqstr s) := by
  constructor
  · simp [extractedoption.eqstr]
  · intro a
    simp [extractedoption.eqstr]

/-- C7: when neither flag grammar matches at the scan start, `extract_option`
returns two empty lists (and, being a total function, cannot fail). -/
theorem c7_no_match_empty (txt : String)
    (h1 : pyOption (txt.toList.dropWhile pyIsSpace) = none)
    (h2 : flagRegexMatch (txt.toList.dropWhile pyIsSpace) = none) :
    extract_option txt = ([], []) := by
  unfold extract_option extractCore
  have hb1 : pyOption ((txt.toList.dropWhile pyIsSpace).drop 0) = none := by
    rw [List.drop_zero]; exact h1
  have hb2 : flagRegexMatch ((txt.toList.dropWhile pyIsSpace).drop 0) = none := by
    rw [List.drop_zero]; exact h2
  rw [dashedLoop_none hb1]
  show (if (0 : Nat) = 0 then _ else _) = _
  rw [if_pos rfl]
  exact Prod.ext rfl (flagLoop_none hb2)

/-- Witness for C7 at a concrete input. -/
theorem c7_no_match_empty_witness :
    pyOption ("hello world".toList.dropWhile pyIsSpace) = none ∧
    flagRegexMatch ("hello world".toList.dropWhile pyIsSpace) = none ∧
    extract_option "hello world" = ([], []) :=
  ⟨by decide, by decide, c7_no_match_empty "hello world" (by decide) (by decide)⟩

/-- C8 counterexample: in `exdb` the name `x` maps to `x.8.gz` with score 10
and to `x.1.gz` with score 5; looking up `"x.1"` returns the section-1 page
first even though its mapping score is the smaller one, so the returned list
is not ordered by descending mapping score (the matching-section re-sort
takes precedence).  Also, a name ending `.gz` bypasses the mapping entirely
and is found by exact source even when the mapping has no entry for it. -/
theorem c8_counterexample :
    findmanpage exdb "x.1" =
      .found [from_store_name_only "x" "x.1.gz",
              from_store_name_only "x" "x.8.gz"] ∧
    (2, from_store_name_only "x" "x.1.gz") ∈ exdb.manpages ∧
    (1, from_store_name_only "x" "x.8.gz") ∈ exdb.manpages ∧
    scoreOf exdb "x" 2 < scoreOf exdb "x" 1 ∧
    findmanpage ⟨[], [(7, from_store_name_only "tar" "tar.1.gz")]⟩ "tar.1.gz" =
      .found [from_store_name_only "tar" "tar.1.gz"] := by
  decide

/-- C8 (amended): for a non-`.gz` name whose section-stripped base has no
mapping entry, `findmanpage` raises `ProgramDoesNotExist`; for a qualified
name, when no mapped page carries the requested section it raises
`ProgramDoesNotExist` for the original qualified name; otherwise the
requested-section pages come first (the first returned page carries the
requested section), each section block is ordered by descending mapping
score, and the discovered suggestions are appended after the matched
results. -/
theorem c8_findmanpage_amended :
    (∀ (st : storedb) (name : String),
      endsWithGz name = false →
      (∀ d ∈ st.mapping, d.src ≠ (splitName name).1) →
      findmanpage st name = .notFound (splitName name).1) ∧
    (∀ (st : storedb) (name base s : String), wfdb st →
      endsWithGz name = false →
      splitName name = (base, some s) →
      (∃ d ∈ st.mapping, d.src = base) →
      (∀ p ∈ st.manpages, isDst st base p.1 = true →
        sectionOfSource (Prod.snd p).source ≠ some s) →
      findmanpage st name = .notFound name) ∧
    (∀ (st : storedb) (name base s : String), wfdb st →
      endsWithGz name = false →
      splitName name = (base, some s) →
      (∃ p ∈ st.manpages, isDst st base p.1 = true ∧
        sectionOfSource (Prod.snd p).source = some s) →
      ∃ (oid : Nat) (h0 hfull : manpage) (rest : List manpage),
        findmanpage st name = .found (replaceHead st oid
          ((results2 st base s ++
            discoverSuggestions st oid (results2 st base s)).map Prod.snd)) ∧
        (results2 st base s).head? = some (oid, h0) ∧
        sectionOfSource h0.source = some s ∧
        replaceHead st oid ((results2 st base s ++
          discoverSuggestions st oid (results2 st base s)).map Prod.snd) =
          hfull :: rest ∧
        sectionOfSource hfull.source = some s ∧
        (∀ x ∈ results2 st base s, ∃ p ∈ st.manpages,
          isDst st base (Prod.fst p) = true ∧
          x = (Prod.fst p,
            from_store_name_only (Prod.snd p).name (Prod.snd p).source)) ∧
        (∀ p ∈ st.manpages, isDst st base (Prod.fst p) = true →
          (Prod.fst p,
            from_store_name_only (Prod.snd p).name (Prod.snd p).source) ∈
            results2 st base s) ∧
        List.Pairwise (fun a b =>
          (secKey s a = true ∧ secKey s b = false) ∨
          (secKey s a = secKey s b ∧
            scoreOf st base (Prod.fst b) ≤ scoreOf st base (Prod.fst a)))
          (results2 st base s)) := by
  refine ⟨?_, ?_, ?_⟩
  · -- part 1: unknown base name
    intro st name hgz hnone
    unfold findmanpage
    rw [if_neg (by simp [hgz])]
    have hfil : (st.mapping.filter
        (fun d => d.src == (splitName name).1)).isEmpty = true := by
      rw [List.isEmpty_iff, List.filter_eq_nil_iff]
      intro d hd
      simp [hnone d hd]
    rw [if_pos hfil]
  · -- part 2: no mapped page carries the requested section
    intro st name base s hwf hgz hsplit hex hnosec
    obtain ⟨d, hd, hdsrc⟩ := hex
    obtain ⟨q, hq, hqd⟩ := hwf.1 d hd
    have hqdst : isDst st base q.1 = true := by
      unfold isDst
      rw [List.any_eq_true]
      exact ⟨d, hd, by simp [hdsrc, hqd]⟩
    have hx0 : (q.1, from_store_name_only q.2.name q.2.source) ∈
        results0 st base :=
      mem_results0_iff.mpr ⟨q, hq, hqdst, rfl⟩
    have hx2 : (q.1, from_store_name_only q.2.name q.2.source) ∈
        results2 st base s := mem_results2.mpr hx0
    unfold findmanpage
    rw [if_neg (by simp [hgz]), hsplit]
    have hfil : ((st.mapping.filter
        (fun d' => d'.src == (base, some s).1)).isEmpty = false) := by
      rw [List.isEmpty_eq_false]
      intro h0
      have : d ∈ st.mapping.filter (fun d' => d'.src == (base, some s).1) :=
        List.mem_filter.mpr ⟨hd, by simp [hdsrc]⟩
      rw [h0] at this
      simp at this
    rw [if_neg (by simp [hfil])]
    cases hr2 : results2 st base s with
    | nil => rw [hr2] at hx2; simp at hx2
    | cons hd2 t2 =>
      obtain ⟨oid, m0⟩ := hd2
      have hm2 : (oid, m0) ∈ results2 st base s := by
        rw [hr2]; exact List.mem_cons_self _ _
      obtain ⟨p, hp, hpdst, hpx⟩ := mem_results0_iff.mp (mem_results2.mp hm2)
      have hm0sec : sectionOfSource m0.source ≠ some s := by
        have := hnosec p hp hpdst
        have hms : m0.source = p.2.source := by
          have := congrArg Prod.snd hpx
          simp at this
          rw [this]
          rfl
        rwa [hms]
      simp only [hr2]
      rw [if_pos (by simp [bne, hm0sec])]
  · -- part 3: a mapped page carries the requested section
    intro st name base s hwf hgz hsplit hex
    obtain ⟨pstar, hpstar, hpdst, hpsec⟩ := hex
    have hx0 : (pstar.1, from_store_name_only pstar.2.name pstar.2.source) ∈
        results0 st base := mem_results0_iff.mpr ⟨pstar, hpstar, hpdst, rfl⟩
    have hxkey : secKey s (pstar.1,
        from_store_name_only pstar.2.name pstar.2.source) = true := by
      unfold secKey
      simpa using hpsec
    have hxA : (pstar.1, from_store_name_only pstar.2.name pstar.2.source) ∈
        (results1 st base).filter (secKey s) :=
      List.mem_filter.mpr ⟨mem_results1.mpr hx0, hxkey⟩
    cases hA0 : (results1 st base).filter (secKey s) with
    | nil => rw [hA0] at hxA; simp at hxA
    | cons hA tA =>
      have hr2 : results2 st base s =
          hA :: (tA ++ (results1 st base).filter (fun x => !secKey s x)) := by
        rw [results2_eq_filters, hA0]
        rfl
      have hAmem : hA ∈ (results1 st base).filter (secKey s) := by
        rw [hA0]; exact List.mem_cons_self _ _
      have hAkey : secKey s hA = true := (List.mem_filter.mp hAmem).2
      obtain ⟨qA, hqA, hqAdst, hqAx⟩ :=
        mem_results0_iff.mp (mem_results1.mp (List.mem_filter.mp hAmem).1)
      obtain ⟨oid, m0⟩ := hA
      have hoid : oid = qA.1 := by
        have := congrArg Prod.fst hqAx
        simpa using this
      have hm0 : m0 = from_store_name_only qA.2.name qA.2.source := by
        have := congrArg Prod.snd hqAx
        simpa using this
      have hm0sec : sectionOfSource m0.source = some s := by
        unfold secKey at hAkey
        simpa using hAkey
      have hqAsec : sectionOfSource qA.2.source = some s := by
        rw [hm0] at hm0sec
        exact hm0sec
      -- the reload of results[0] finds exactly qA
      have hfind : st.manpages.find? (fun p => p.1 == oid) = some qA := by
        rw [hoid]
        exact find?_id_of_nodup hwf.2.1 hqA
      refine ⟨oid, m0, qA.2,
        ((tA ++ (results1 st base).filter (fun x => !secKey s x)) ++
          discoverSuggestions st oid (results2 st base s)).map Prod.snd,
        ?_, ?_, ?_, ?_, ?_, ?_, ?_, ?_⟩
      · -- the computation takes the success branch
        unfold findmanpage
        rw [if_neg (by simp [hgz]), hsplit]
        have hfil : ((st.mapping.filter
            (fun d' => d'.src == (base, some s).1)).isEmpty = false) := by
          rw [List.isEmpty_eq_false]
          intro h0
          have hdst := hpdst
          unfold isDst at hdst
          rw [List.any_eq_true] at hdst
          obtain ⟨d, hd, hds⟩ := hdst
          have : d ∈ st.mapping.filter (fun d' => d'.src == (base, some s).1) := by
            refine List.mem_filter.mpr ⟨hd, ?_⟩
            have := (Bool.and_eq_true _ _).mp hds
            simpa using this.1
          rw [h0] at this
          simp at this
        rw [if_neg (by simp [hfil])]
        simp only [hr2]
        rw [if_neg (by simp [bne, hm0sec])]
      · simp [hr2]
      · exact hm0sec
      · -- the reloaded head is the full document qA.2
        rw [hr2]
        unfold replaceHead
        simp only [List.cons_append, List.map_cons]
        rw [← hr2, hfind]
      · exact hqAsec
      · -- every result is a mapped page
        intro x hx
        exact mem_results0_iff.mp (mem_results2.mp hx)
      · -- every mapped page appears among the results
        intro p hp hpd
        exact mem_results2.mpr (mem_results0_iff.mpr ⟨p, hp, hpd, rfl⟩)
      · -- matching-section first, each block by descending score
        rw [results2_eq_filters]
        rw [List.pairwise_append]
        refine ⟨?_, ?_, ?_⟩
        · refine List.Pairwise.imp_of_mem ?_
            ((pairwise_results1 st base).sublist (List.filter_sublist _))
          intro a b ha hb hab
          refine Or.inr ⟨?_, by simpa [scoreLe] using hab⟩
          rw [(List.mem_filter.mp ha).2, (List.mem_filter.mp hb).2]
        · refine List.Pairwise.imp_of_mem ?_
            ((pairwise_results1 st base).sublist (List.filter_sublist _))
          intro a b ha hb hab
          refine Or.inr ⟨?_, by simpa [scoreLe] using hab⟩
          have ha' := (List.mem_filter.mp ha).2
          have hb' := (List.mem_filter.mp hb).2
          simp only [Bool.not_eq_true'] at ha' hb'
          rw [ha', hb']
        · intro a ha b hb
          refine Or.inl ⟨(List.mem_filter.mp ha).2, ?_⟩
          have hb' := (List.mem_filter.mp hb).2
          simpa using hb'

/-- Witness for C8 (amended), applying the success part at `exdb`. -/
theorem c8_findmanpage_amended_witness :
    ∃ (oid : Nat) (h0 hfull : manpage) (rest : List manpage),
      findmanpage exdb "x.1" = .found (replaceHead exdb oid
        ((results2 exdb "x" "1" ++
          discoverSuggestions exdb oid (results2 exdb "x" "1")).map Prod.snd)) ∧
      (results2 exdb "x" "1").head? = some (oid, h0) ∧
      sectionOfSource h0.source = some "1" ∧
      replaceHead exdb oid ((results2 exdb "x" "1" ++
        discoverSuggestions exdb oid (results2 exdb "x" "1")).map Prod.snd) =
        hfull :: rest ∧
      sectionOfSource hfull.source = some "1" ∧
      (∀ x ∈ results2 exdb "x" "1", ∃ p ∈ exdb.manpages,
        isDst exdb "x" (Prod.fst p) = true ∧
        x = (Prod.fst p,
          from_store_name_only (Prod.snd p).name (Prod.snd p).source)) ∧
      (∀ p ∈ exdb.manpages, isDst exdb "x" (Prod.fst p) = true →
        (Prod.fst p,
          from_store_name_only (Prod.snd p).name (Prod.snd p).source) ∈
          results2 exdb "x" "1") ∧
      List.Pairwise (fun a b =>
        (secKey "1" a = true ∧ secKey "1" b = false) ∨
        (secKey "1" a = secKey "1" b ∧
          scoreOf exdb "x" (Prod.fst b) ≤ scoreOf exdb "x" (Prod.fst a)))
        (results2 exdb "x" "1") :=
  c8_findmanpage_amended.2.2 exdb "x.1" "x" "1"
    (by unfold wfdb; decide) (by decide) (by decide) (by decide)

/-- C9: `find_option` returns the first option paragraph (in paragraph
order) whose combined short-plus-long spelling list contains the flag, and
`none` when no option paragraph contains it. -/
theorem c9_find_option_first (m : manpage) (f : String) :
    (∀ o, m.find_option f = some o ↔
      f ∈ o.opts ∧ ∃ l1 l2, m.options = l1 ++ o :: l2 ∧ ∀ o' ∈ l1, f ∉ o'.opts) ∧
    (m.find_option f = none ↔ ∀ o ∈ m.options, f ∉ o.opts) := by
  constructor
  · intro o
    unfold manpage.find_option
    rw [List.find?_eq_some]
    simp only [List.any_eq_true, beq_iff_eq, exists_eq_right]
    refine and_congr_right fun _ => ?_
    constructor
    · rintro ⟨as, bs, hsp, hall⟩
      exact ⟨as, bs, hsp, fun o' ho' hmem => by
        have := hall o' ho'
        simp [List.any_eq_true] at this
        exact this f hmem rfl⟩
    · rintro ⟨l1, l2, hsp, hall⟩
      refine ⟨l1, l2, hsp, fun a ha => ?_⟩
      simp [List.any_eq_true]
      intro x hx hxf
      exact hall a ha (hxf ▸ hx)
  · unfold manpage.find_option
    rw [List.find?_eq_none]
    simp [List.any_eq_true]

/-- C10: `extract_option` is invariant under removal of leading whitespace,
and more generally depends only on the text from the first non-whitespace
character onward. -/
theorem c10_lstrip_invariant :
    (∀ txt, extract_option (lstrip txt) = extract_option txt) ∧
    (∀ t1 t2 : String,
      t1.toList.dropWhile pyIsSpace = t2.toList.dropWhile pyIsSpace →
      extract_option t1 = extract_option t2) := by
  constructor
  · intro txt
    unfold extract_option lstrip
    rw [List.toList_asString, List.dropWhile_idempotent]
  · intro t1 t2 h
    unfold extract_option
    rw [h]

/-- Witness for C10 at concrete inputs. -/
theorem c10_lstrip_invariant_witness :
    extract_option (lstrip "  -a") = extract_option "  -a" ∧
    "\t-a".toList.dropWhile pyIsSpace = "-a".toList.dropWhile pyIsSpace ∧
    extract_option "\t-a" = extract_option "-a" :=
  ⟨c10_lstrip_invariant.1 "  -a", by decide,
   c10_lstrip_invariant.2 "\t-a" "-a" (by decide)⟩

end Explainshell
